import Mathlib

/-!
Shallow embedding of the Skelenox collaboration agent (skelenox.py):
the string-level filters, the local appliers for remote comments and
names, the sync agent's watermark fold and worker loop, the request
retry logic of the HTTP client, and the type-string normalization.
Python strings are modelled as `List Char`, addresses and timestamps
as `Nat`, the IDA workspace as explicit state records.
-/

/-- Python `a.startswith(b)` on strings, as a Bool on char lists
(pattern first). -/
def isPrefixB : List Char → List Char → Bool
  | [], _ => true
  | _ :: _, [] => false
  | a :: as, b :: bs => a = b && isPrefixB as bs

/-- Python `pat in s` substring test, as a Bool on char lists. -/
def isInfixB (pat : List Char) : List Char → Bool
  | [] => isPrefixB pat []
  | c :: rest => isPrefixB pat (c :: rest) || isInfixB pat rest

/-- Python `s.lower()` (ASCII view). -/
def lowerL (s : List Char) : List Char := s.map Char.toLower

/-- Python `s.encode('ascii', 'replace')`: non-ASCII characters become
`?`. -/
def asciiReplace (s : List Char) : List Char :=
  s.map (fun c => if c.toNat < 128 then c else '?')

/-- Python `s.encode('ascii', 'ignore')`: non-ASCII characters are
dropped. -/
def asciiIgnore (s : List Char) : List Char :=
  s.filter (fun c => c.toNat < 128)

/-- Recursion core of `replaceAll`: `fuel` bounds the number of steps;
each step consumes at least one character, so `fuel = s.length` is
always enough. -/
def replaceAllAux (pat repl : List Char) : Nat → List Char → List Char
  | 0, s => s
  | fuel + 1, s =>
    match s with
    | [] => []
    | c :: rest =>
      if pat ≠ [] ∧ isPrefixB pat (c :: rest) = true then
        repl ++ replaceAllAux pat repl fuel ((c :: rest).drop pat.length)
      else
        c :: replaceAllAux pat repl fuel rest

/-- Python `s.replace(pat, repl)`: replace every non-overlapping
occurrence of `pat`, scanning left to right. -/
def replaceAll (pat repl : List Char) (s : List Char) : List Char :=
  replaceAllAux pat repl s.length s

/-- One remote annotation as delivered by the server: an address, a
string payload and a server-assigned timestamp. -/
structure RAnn where
  address : Nat
  data : List Char
  timestamp : Nat
  deriving DecidableEq

/-- The local IDA workspace surface the agent reads and writes: the
plain comment, the repeatable comment (both absent-able) and the
current name at each address. -/
@[ext]
structure WState where
  plain : Nat → Option (List Char)
  rpt : Nat → Option (List Char)
  names : Nat → List Char

/-- SkelUtils.name_blacklist's default generator name markers. -/
def default_values : List (List Char) :=
  ["sub_".data, "dword_".data, "unk_".data, "byte_".data, "word_".data,
   "loc_".data]

/-- SkelUtils.name_blacklist: Python tests `value in name[:len(value)+1]`
for each default marker, i.e. a substring search inside the first
`len(value)+1` characters of the name. -/
def name_blacklist (name : List Char) : Bool :=
  default_values.any (fun v => isInfixB v (name.take (v.length + 1)))

/-- SkelUtils.filter_coms_blacklist's blacklisted comment stems.  Note
the source's implicit string concatenation: `"Size" "this"` is the one
literal `"Sizethis"`. -/
def black_list : List (List Char) :=
  ["size_t".data, "int".data, "LPSTR".data, "char".data, "char *".data,
   "lpString".data, "dw".data, "lp".data, "Str".data, "Dest".data,
   "Src".data, "cch".data, "Dst".data, "jumptable".data, "switch ".data,
   "unsigned int".data, "void *".data,
   "indirect table for switch statement".data, "Sizethis".data,
   "jump table for".data, "switch jump".data, "nSize".data,
   "hInternet".data, "hObject".data, "SEH".data,
   "Exception handler".data, "Source".data, "Size".data, "Val".data,
   "Time".data, "struct".data, "unsigned __int".data, "this".data,
   "__int32".data, "void (".data, "Memory".data, "HINSTANCE".data,
   "jumptable".data]

/-- SkelUtils.filter_coms_blacklist: a missing comment is blacklisted;
otherwise the comment is blacklisted when `cmt.lower()` starts with
`elem.lower()` for some stem of the blacklist. -/
def filter_coms_blacklist : Option (List Char) → Bool
  | none => true
  | some cmt => black_list.any (fun e => isPrefixB (lowerL e) (lowerL cmt))

/-- SkelUtils.execute_comment: read the plain comment at the address; if
both it and the repeatable comment differ from the payload, schedule one
synchronized `MakeRptCmt` write of the ascii-replaced payload.  Returns
the new state and whether a write was scheduled. -/
def execute_comment (s : WState) (c : RAnn) : WState × Bool :=
  let cmt := s.plain c.address
  if cmt ≠ some c.data ∧ s.rpt c.address ≠ some c.data then
    ({ s with
        rpt := Function.update s.rpt c.address (some (asciiReplace c.data)) },
     true)
  else
    (s, false)

/-- The state transition of SkelUtils.execute_comment. -/
def commentApply (s : WState) (c : RAnn) : WState := (execute_comment s c).1

/-- A batch of remote comments handed to the applier in server order. -/
def commentBatch (s : WState) (b : List RAnn) : WState :=
  b.foldl commentApply s

/-- SkelUtils.execute_rename's rename write: `MakeName` with the
ascii-ignored payload. -/
def writeName (s : WState) (n : RAnn) : WState :=
  { s with names := Function.update s.names n.address (asciiIgnore n.data) }

/-- SkelUtils.execute_rename: force-rename without prompting when the
current name starts with `sub_`; afterwards, if the current name still
differs from the payload, prompt the analyst (`AskYN`) and rename only
on a yes.  `ask` is the analyst's answer; returns the new state and
whether a prompt was shown. -/
def execute_rename (ask : Bool) (s : WState) (n : RAnn) : WState × Bool :=
  let s1 := if isPrefixB "sub_".data (s.names n.address) then writeName s n
            else s
  if s1.names n.address ≠ n.data then
    (if ask then writeName s1 n else s1, true)
  else
    (s1, false)

/-- The state transition of SkelUtils.execute_rename. -/
def renameApply (ask : Bool) (s : WState) (n : RAnn) : WState :=
  (execute_rename ask s n).1

/-- Outcome of one `h_conn.request` call: either the request is written
to the socket, or `httplib.CannotSendRequest` is raised on a stale
keep-alive connection. -/
inductive SendOutcome
  | sent
  | cannotSend
  deriving DecidableEq

/-- Failures SkelConnection.poli_request can surface to its caller. -/
inductive PErr
  | notOnline
  | cannotSend
  deriving DecidableEq

/-- Observable trace of one SkelConnection.poli_request call: the
(endpoint, payload) pair of every attempt written to the wire, how many
close-and-reconnect cycles ran, and the outcome seen by the caller. -/
structure ReqTrace where
  attempts : List (String × String)
  reconnects : Nat
  result : Except PErr Unit

/-- SkelConnection.poli_request: refuse when offline; try the request;
on `CannotSendRequest` close the connection, reconnect, and re-issue the
same request outside any handler, so a second failure propagates. -/
def poli_request (is_online : Bool) (endpoint payload : String)
    (first retry : SendOutcome) : ReqTrace :=
  if is_online = false then ⟨[], 0, .error .notOnline⟩
  else
    match first with
    | .sent => ⟨[(endpoint, payload)], 0, .ok ()⟩
    | .cannotSend =>
      match retry with
      | .sent => ⟨[(endpoint, payload), (endpoint, payload)], 1, .ok ()⟩
      | .cannotSend =>
        ⟨[(endpoint, payload), (endpoint, payload)], 1,
         .error .cannotSend⟩

/-- SkelConnection.push_comment: `False` for a missing comment, else the
server's `result` flag from the JSON response. -/
def push_comment (server_result : Bool) : Option (List Char) → Bool
  | none => false
  | some _ => server_result

/-- SkelConnection.push_name: `False` for a missing name; otherwise the
server's `result` flag is only logged and the function returns `True`
unconditionally. -/
def push_name (server_result : Bool) : Option (List Char) → Bool
  | none => false
  | some _ => true

/-- SkelIDBHook.cmt_changed: read the repeatable or plain comment at the
address and push it unless filter_coms_blacklist rejects it.  Returns
the pushed (address, comment) calls. -/
def cmt_changed (s : WState) (addr : Nat) (is_rpt : Bool) :
    List (Nat × Option (List Char)) :=
  let cmt := if is_rpt then s.rpt addr else s.plain addr
  if filter_coms_blacklist cmt = false then [(addr, cmt)] else []

/-- SkelIDPHook.renamed: inside `[MinEA, MaxEA]`, local names are
skipped and non-blacklisted global names are pushed; outside the range
the event is discarded with a warning.  Returns the push_name calls and
whether the warning fired. -/
def renamed (minEA maxEA ea : Nat) (new_name : List Char)
    (is_local_name : Bool) : List (Nat × List Char) × Bool :=
  if minEA ≤ ea ∧ ea ≤ maxEA then
    if is_local_name then ([], false)
    else if name_blacklist new_name = false then ([(ea, new_name)], false)
    else ([], false)
  else
    ([], true)

/-- Result of one SkelSyncAgent.sync_names call: the workspace after the
appliers ran, the advanced watermark, and the returned Bool. -/
structure SyncResult where
  state : WState
  last_timestamp : Nat
  ok : Bool

/-- SkelSyncAgent.sync_names: bail out offline; otherwise hand every
fetched comment to execute_comment and every fetched name to
execute_rename, folding `last_timestamp = max(timestamp, last_timestamp)`
after each one.  `ask` is the analyst's answer to each rename prompt. -/
def sync_names (ask : RAnn → Bool) (is_online : Bool) (s : WState)
    (last : Nat) (comments names : List RAnn) : SyncResult :=
  if is_online = false then ⟨s, last, false⟩
  else
    let p1 := comments.foldl
      (fun (p : WState × Nat) c => (commentApply p.1 c, max c.timestamp p.2))
      (s, last)
    let p2 := names.foldl
      (fun (p : WState × Nat) n =>
        (renameApply (ask n) p.1 n, max n.timestamp p.2))
      p1
    ⟨p2.1, p2.2, true⟩

/-- The two threading events owned by SkelSyncAgent. -/
structure AgentState where
  kill_event : Bool
  update_event : Bool
  deriving DecidableEq

/-- SkelSyncAgent.kill: set the stop flag, then set the wake signal so
the worker does not stay blocked on `update_event.wait()`. -/
def kill (s : AgentState) : AgentState :=
  { s with kill_event := true, update_event := true }

/-- What one wake of the worker loop does next. -/
inductive StepOut
  | terminated
  | synced (s : AgentState)
  deriving DecidableEq

/-- One iteration of SkelSyncAgent.run once `update_event.wait()` has
returned: clear the signal, then `kill_event.wait(timeout)` — if the
stop flag is set the loop returns, otherwise it calls sync_names. -/
def run_step (s : AgentState) : StepOut :=
  let s1 : AgentState := { s with update_event := false }
  if s1.kill_event then .terminated else .synced s1

/-- How many sync_names calls the worker loop makes in the next `fuel`
wakes from state `s`. -/
def sync_count (s : AgentState) : Nat → Nat
  | 0 => 0
  | fuel + 1 =>
    match run_step s with
    | .terminated => 0
    | .synced s' => 1 + sync_count s' fuel

/-- SkelUtils.prepare_parse_type's function-pointer calling-convention
markers. -/
def fpconventions : List (List Char) :=
  ["__cdecl *".data, "__stdcall *".data, "__fastcall *".data,
   "__thiscall *".data]

/-- SkelUtils.prepare_parse_type's plain-prototype calling-convention
markers. -/
def cconventions : List (List Char) :=
  ["__cdecl".data, "__stdcall".data, "__fastcall".data,
   "__thiscall".data]

/-- SkelUtils.prepare_parse_type: splice the resolved symbol name (or
`Default`) into the type string after a recognized calling-convention
marker; `mtype` starts as None and is only assigned inside the two
marker loops, the second of which runs only when the first matched
nothing. -/
def prepare_parse_type (typestr : List Char) (trueName : Option (List Char)) :
    Option (List Char) :=
  let lname := match trueName with
    | none => "Default".data
    | some l => l
  let fp := fpconventions.foldl
    (fun (p : Bool × Option (List Char)) conv =>
      if isInfixB conv typestr then
        (true, some (replaceAll conv (conv ++ lname) typestr))
      else p)
    (false, none)
  let res := if fp.1 = false then
      cconventions.foldl
        (fun (p : Bool × Option (List Char)) conv =>
          if isInfixB conv typestr then
            (true, some (replaceAll conv (conv ++ ' ' :: lname) typestr))
          else p)
        fp
    else fp
  res.2

/-- The per-address repeatable-comment transition performed by
execute_comment, with the plain comment `p` and the current repeatable
comment `r` at that address. -/
def gstep (p r : Option (List Char)) (d : List Char) : Option (List Char) :=
  if p ≠ some d ∧ r ≠ some d then some (asciiReplace d) else r

/-- The watermark fold of sync_names:
`last_timestamp = max(timestamp, last_timestamp)` over a stream of
timestamps. -/
def tsfold (l : List Nat) (a : Nat) : Nat :=
  l.foldl (fun acc t => max t acc) a

/-- A workspace with no comments and empty names everywhere. -/
def emptyWState : WState :=
  ⟨fun _ => none, fun _ => none, fun _ => []⟩

/-- A workspace with no comments where every address carries the
generator-default name `dword_4`. -/
def exRenameState : WState :=
  ⟨fun _ => none, fun _ => none, fun _ => "dword_4".data⟩

example : name_blacklist "sub_401000".data = true := by decide
example : name_blacklist "xsub_a".data = true := by decide
example : name_blacklist "my_sub_a".data = false := by decide
example : filter_coms_blacklist (some "INT x".data) = true := by decide
example : filter_coms_blacklist (some "my note".data) = false := by decide
example : prepare_parse_type "int (int)".data (some "f".data) = none := by
  decide

lemma isPrefixB_length_le (p : List Char) :
    ∀ s : List Char, isPrefixB p s = true → p.length ≤ s.length := by
  induction p with
  | nil => intro s _; simp
  | cons a as ih =>
    intro s h
    cases s with
    | nil => simp [isPrefixB] at h
    | cons b bs =>
      simp only [isPrefixB, Bool.and_eq_true] at h
      simpa using ih bs h.2

lemma isInfixB_iff_drop (p s : List Char) :
    isInfixB p s = true ↔ ∃ i, isPrefixB p (s.drop i) = true := by
  induction s with
  | nil =>
    simp only [isInfixB]
    exact ⟨fun h => ⟨0, by simpa using h⟩, fun ⟨i, h⟩ => by simpa using h⟩
  | cons c rest ih =>
    simp only [isInfixB, Bool.or_eq_true]
    constructor
    · rintro (h | h)
      · exact ⟨0, by simpa using h⟩
      · obtain ⟨i, hi⟩ := ih.mp h
        exact ⟨i + 1, by simpa using hi⟩
    · rintro ⟨i, hi⟩
      cases i with
      | zero => exact Or.inl (by simpa using hi)
      | succ j => exact Or.inr (ih.mpr ⟨j, by simpa using hi⟩)

lemma isPrefixB_of_take (p : List Char) :
    ∀ (s : List Char) (k : Nat), isPrefixB p (s.take k) = true →
      isPrefixB p s = true := by
  induction p with
  | nil => intro s k _; cases s <;> simp [isPrefixB]
  | cons a as ih =>
    intro s k h
    cases s with
    | nil => simpa using h
    | cons b bs =>
      cases k with
      | zero => simp [isPrefixB] at h
      | succ m =>
        simp only [List.take, isPrefixB, Bool.and_eq_true] at h ⊢
        exact ⟨h.1, ih bs m h.2⟩

lemma isPrefixB_take_of (p : List Char) :
    ∀ (s : List Char) (k : Nat), p.length ≤ k → isPrefixB p s = true →
      isPrefixB p (s.take k) = true := by
  induction p with
  | nil => intro s k _ _; cases s <;> cases k <;> simp [isPrefixB]
  | cons a as ih =>
    intro s k hk h
    cases s with
    | nil => simpa using h
    | cons b bs =>
      cases k with
      | zero => simp at hk
      | succ m =>
        simp only [List.take, isPrefixB, Bool.and_eq_true] at h ⊢
        exact ⟨h.1, ih bs m (by simpa using hk) h.2⟩

lemma isInfixB_take_succ (v s : List Char) (hv : v ≠ []) :
    isInfixB v (s.take (v.length + 1)) = true ↔
      (isPrefixB v s = true ∨ isPrefixB v (s.drop 1) = true) := by
  have hvpos : 0 < v.length := List.length_pos.mpr hv
  constructor
  · intro h
    obtain ⟨i, hi⟩ := (isInfixB_iff_drop v _).mp h
    have hlen := isPrefixB_length_le v _ hi
    have hdt : (s.take (v.length + 1)).drop i = (s.drop i).take (v.length + 1 - i) := by
      rw [List.drop_take]
    rw [hdt] at hi
    have hi2 : i ≤ 1 := by
      have h1 := isPrefixB_length_le v _ hi
      have h2 : ((s.drop i).take (v.length + 1 - i)).length ≤ v.length + 1 - i :=
        List.length_take_le _ _
      omega
    interval_cases i
    · exact Or.inl (isPrefixB_of_take v _ _ hi)
    · exact Or.inr (isPrefixB_of_take v _ _ hi)
  · rintro (h | h)
    · exact (isInfixB_iff_drop v _).mpr
        ⟨0, by simpa using isPrefixB_take_of v s (v.length + 1) (by omega) h⟩
    · refine (isInfixB_iff_drop v _).mpr ⟨1, ?_⟩
      have hdt1 : (s.take (v.length + 1)).drop 1 = (s.drop 1).take v.length := by
        rw [List.drop_take]
        congr 1
      rw [hdt1]
      exact isPrefixB_take_of v (s.drop 1) v.length (by omega) h

/-- C6 counterexample: `xsub_a` is classified as a generator default by
SkelUtils.name_blacklist even though no default marker occurs at
position 0 of the string. -/
theorem name_blacklist_not_anchored :
    name_blacklist "xsub_a".data = true ∧
      ("xsub_a".data.take 0 = [] ∧
        default_values.all (fun v => !(isPrefixB v "xsub_a".data)) = true) := by
  decide

/-- C6 (amended): SkelUtils.name_blacklist returns true exactly when one
of the default markers `sub_`, `dword_`, `unk_`, `byte_`, `word_`,
`loc_` occurs at position 0 or at position 1 of the name, because the
source tests `value in name[:len(value)+1]`, a substring search over the
first `len(value)+1` characters. -/
theorem name_blacklist_iff_head_positions (name : List Char) :
    name_blacklist name = true ↔
      ∃ v ∈ default_values,
        (isPrefixB v name = true ∨ isPrefixB v (name.drop 1) = true) := by
  have hne : ∀ v ∈ default_values, v ≠ [] := by decide
  simp only [name_blacklist, List.any_eq_true]
  constructor
  · rintro ⟨v, hv, h⟩
    exact ⟨v, hv, (isInfixB_take_succ v name (hne v hv)).mp h⟩
  · rintro ⟨v, hv, h⟩
    exact ⟨v, hv, (isInfixB_take_succ v name (hne v hv)).mpr h⟩

/-- C7: SkelIDPHook.renamed pushes the new name exactly once if and only
if the address lies in `[MinEA, MaxEA]`, the name is not a local name,
and the name does not match the default-name blacklist; out-of-range
renames are discarded with a warning and local names are never
forwarded. -/
theorem renamed_push_characterization (minEA maxEA ea : Nat)
    (new_name : List Char) (is_local_name : Bool) :
    ((renamed minEA maxEA ea new_name is_local_name).1 = [(ea, new_name)] ↔
      (minEA ≤ ea ∧ ea ≤ maxEA ∧ is_local_name = false ∧
        name_blacklist new_name = false))
    ∧ (¬(minEA ≤ ea ∧ ea ≤ maxEA) →
        (renamed minEA maxEA ea new_name is_local_name).1 = [] ∧
        (renamed minEA maxEA ea new_name is_local_name).2 = true)
    ∧ (is_local_name = true →
        (renamed minEA maxEA ea new_name is_local_name).1 = []) := by
  unfold renamed
  split_ifs with h1 h2 h3 <;> simp_all

/-- C8: SkelSyncAgent.kill sets both the stop flag and the wake signal;
from any state in which the stop flag is set this way, the worker loop
wakes, observes the flag inside `kill_event.wait`, and terminates, so
sync_names is never invoked again (zero sync calls for any number of
further wakes). -/
theorem kill_stops_worker (s : AgentState) (fuel : Nat) :
    (kill s).kill_event = true ∧ (kill s).update_event = true ∧
      run_step (kill s) = .terminated ∧ sync_count (kill s) fuel = 0 := by
  refine ⟨rfl, rfl, rfl, ?_⟩
  cases fuel <;> simp [sync_count, run_step, kill]

/-- C9: the code evaluated at the failing input — the server rejects the
push (result flag false) for the name `ParseHeader`, yet push_name
returns True, while push_comment under the same rejection returns
False.  push_name's returned boolean does not reflect the server's
result flag. -/
theorem push_name_ignores_server_result :
    push_name false (some "ParseHeader".data) = true ∧
      push_comment false (some "ParseHeader".data) = false ∧
      push_name true (some "ParseHeader".data) =
        push_name false (some "ParseHeader".data) := by
  decide

/-- C10: when a type string contains none of the recognized
calling-convention markers (neither the function-pointer forms with
` *` nor the plain prototype forms), prepare_parse_type returns None,
dropping the type instead of returning it unchanged. -/
theorem prepare_parse_type_none_without_markers (typestr : List Char)
    (trueName : Option (List Char))
    (h : ∀ conv ∈ fpconventions ++ cconventions, isInfixB conv typestr = false) :
    prepare_parse_type typestr trueName = none := by
  have h1 : isInfixB "__cdecl *".data typestr = false := h _ (by decide)
  have h2 : isInfixB "__stdcall *".data typestr = false := h _ (by decide)
  have h3 : isInfixB "__fastcall *".data typestr = false := h _ (by decide)
  have h4 : isInfixB "__thiscall *".data typestr = false := h _ (by decide)
  have h5 : isInfixB "__cdecl".data typestr = false := h _ (by decide)
  have h6 : isInfixB "__stdcall".data typestr = false := h _ (by decide)
  have h7 : isInfixB "__fastcall".data typestr = false := h _ (by decide)
  have h8 : isInfixB "__thiscall".data typestr = false := h _ (by decide)
  simp [prepare_parse_type, fpconventions, cconventions,
    h1, h2, h3, h4, h5, h6, h7, h8]

/-- C10 witness: the convention-free prototype `int (int)` satisfies the
hypothesis and is dropped to None. -/
theorem prepare_parse_type_none_witness :
    (∀ conv ∈ fpconventions ++ cconventions,
        isInfixB conv "int (int)".data = false) ∧
      prepare_parse_type "int (int)".data (some "f".data) = none :=
  ⟨by decide, prepare_parse_type_none_without_markers "int (int)".data
    (some "f".data) (by decide)⟩

/-- C5: through SkelConnection.poli_request (when online), a stale
connection on the first send triggers exactly one reconnect and one
retry of the same request; if the retry fails again the failure
propagates as an error; a first successful send means no reconnect; and
never more than two attempts are made. -/
theorem poli_request_retry_once (endpoint payload : String)
    (first retry : SendOutcome) :
    ((poli_request true endpoint payload first retry).attempts.length ≤ 2)
    ∧ (first = .cannotSend →
        (poli_request true endpoint payload first retry).reconnects = 1 ∧
        (poli_request true endpoint payload first retry).attempts =
          [(endpoint, payload), (endpoint, payload)])
    ∧ (first = .cannotSend → retry = .cannotSend →
        (poli_request true endpoint payload first retry).result =
          .error .cannotSend)
    ∧ (first = .sent →
        (poli_request true endpoint payload first retry).reconnects = 0 ∧
        (poli_request true endpoint payload first retry).attempts =
          [(endpoint, payload)] ∧
        (poli_request true endpoint payload first retry).result = .ok ()) := by
  cases first <;> cases retry <;> simp [poli_request]

/-- C2 counterexample: the current name `dword_4` matches the
default-generator prefix `dword_`, yet SkelUtils.execute_rename prompts
the analyst (the second branch, since only `sub_` is force-renamed) and,
on a negative answer, leaves the name unchanged instead of overwriting
it without prompting. -/
theorem execute_rename_default_not_forced :
    name_blacklist "dword_4".data = true ∧
      (execute_rename false exRenameState ⟨0, "foo".data, 0⟩).2 = true ∧
      (execute_rename false exRenameState ⟨0, "foo".data, 0⟩).1.names 0 =
        "dword_4".data := by
  decide

/-- C2 (amended): SkelUtils.execute_rename force-overwrites without
prompting only when the current name starts with `sub_` (for an ASCII
payload); for any other current name differing from the incoming one —
including the remaining generator defaults `dword_`, `unk_`, `byte_`,
`word_`, `loc_` — the analyst is prompted and the rename is applied only
on an affirmative answer; an identical current name is a no-op without a
prompt. -/
theorem execute_rename_policy (s : WState) (n : RAnn) (ask : Bool) :
    (asciiIgnore n.data = n.data →
      isPrefixB "sub_".data (s.names n.address) = true →
      (renameApply ask s n).names n.address = n.data ∧
        (execute_rename ask s n).2 = false)
    ∧ (isPrefixB "sub_".data (s.names n.address) = false →
        s.names n.address ≠ n.data →
        (execute_rename ask s n).2 = true ∧
        (ask = true →
          (renameApply ask s n).names n.address = asciiIgnore n.data) ∧
        (ask = false →
          (renameApply ask s n).names n.address = s.names n.address))
    ∧ (asciiIgnore n.data = n.data → s.names n.address = n.data →
        (renameApply ask s n).names n.address = s.names n.address ∧
        (execute_rename ask s n).2 = false) := by
  refine ⟨?_, ?_, ?_⟩
  · intro hA hP
    simp [renameApply, execute_rename, writeName, hP, Function.update_same, hA]
  · intro hP hne
    cases ask with
    | true =>
      simp [renameApply, execute_rename, writeName, hP, hne,
        Function.update_same]
    | false =>
      simp [renameApply, execute_rename, hP, hne]
  · intro hA heq
    by_cases hP : isPrefixB "sub_".data (s.names n.address) = true
    · have hP' : isPrefixB "sub_".data n.data = true := by
        rw [← heq]; exact hP
      simp [renameApply, execute_rename, writeName, hP', heq, hA,
        Function.update_same]
    · simp only [Bool.not_eq_true] at hP
      have hP' : isPrefixB "sub_".data n.data = false := by
        rw [← heq]; exact hP
      simp [renameApply, execute_rename, hP', heq]

/-- C3 counterexample: the comment `int x` is marked boilerplate by the
filter, yet SkelSyncAgent.sync_names hands it straight to
execute_comment, which writes it into the workspace — the sync loop does
not run filter_coms_blacklist on fetched comments. -/
theorem sync_loop_writes_blacklisted_comment :
    filter_coms_blacklist (some "int x".data) = true ∧
      (sync_names (fun _ => false) true emptyWState 0
          [⟨0, "int x".data, 1⟩] []).state.rpt 0 = some "int x".data ∧
      emptyWState.rpt 0 = none := by
  decide

/-- C3 (amended): a comment starting case-insensitively with a
blacklisted stem is marked boilerplate by filter_coms_blacklist, and the
comment interceptor (cmt_changed) never pushes such a comment upstream;
the sync loop, however, hands every fetched comment directly to the
applier without running the filter, so delivery can still trigger a
local workspace write. -/
theorem filter_coms_marks_and_blocks_push (c : List Char) (s : WState)
    (addr : Nat) (is_rpt : Bool) :
    ((∃ e ∈ black_list, isPrefixB (lowerL e) (lowerL c) = true) →
      filter_coms_blacklist (some c) = true)
    ∧ (filter_coms_blacklist
          (if is_rpt then s.rpt addr else s.plain addr) = true →
        cmt_changed s addr is_rpt = []) := by
  constructor
  · rintro ⟨e, he, hp⟩
    simp only [filter_coms_blacklist, List.any_eq_true]
    exact ⟨e, he, hp⟩
  · intro h
    simp [cmt_changed, h]

lemma pairfold_snd (F : WState → RAnn → WState) (xs : List RAnn) :
    ∀ (s : WState) (l : Nat),
      (xs.foldl (fun (p : WState × Nat) c => (F p.1 c, max c.timestamp p.2))
          (s, l)).2 = tsfold (xs.map RAnn.timestamp) l := by
  induction xs with
  | nil => intro s l; rfl
  | cons c tl ih =>
    intro s l
    simpa [tsfold] using ih (F s c) (max c.timestamp l)

lemma tsfold_append (l₁ l₂ : List Nat) (a : Nat) :
    tsfold (l₁ ++ l₂) a = tsfold l₂ (tsfold l₁ a) := by
  simp [tsfold, List.foldl_append]

lemma sync_names_last (ask : RAnn → Bool) (s : WState) (last : Nat)
    (comments names : List RAnn) :
    (sync_names ask true s last comments names).last_timestamp =
      tsfold ((comments ++ names).map RAnn.timestamp) last := by
  simp only [sync_names, Bool.true_eq_false, if_false, List.map_append,
    tsfold_append]
  rw [pairfold_snd (fun st nn => renameApply (ask nn) st nn) names]
  congr 1
  have := pairfold_snd commentApply comments s last
  simpa using this

lemma le_tsfold (l : List Nat) : ∀ a : Nat, a ≤ tsfold l a := by
  induction l with
  | nil => intro a; exact Nat.le_refl a
  | cons t tl ih =>
    intro a
    exact Nat.le_trans (Nat.le_max_right t a) (ih (max t a))

lemma tsfold_mem_le (l : List Nat) :
    ∀ (a t : Nat), t ∈ l → t ≤ tsfold l a := by
  induction l with
  | nil => intro a t ht; cases ht
  | cons u tl ih =>
    intro a t ht
    rcases List.mem_cons.mp ht with h | h
    · subst h
      exact Nat.le_trans (Nat.le_max_left t a) (le_tsfold tl (max t a))
    · exact ih (max u a) t h

lemma tsfold_attained (l : List Nat) :
    ∀ a : Nat, tsfold l a = a ∨ tsfold l a ∈ l := by
  induction l with
  | nil => intro a; exact Or.inl rfl
  | cons u tl ih =>
    intro a
    rcases ih (max u a) with h | h
    · rcases Nat.le_total u a with hle | hle
      · exact Or.inl (by simpa [tsfold, Nat.max_eq_right hle] using h)
      · refine Or.inr ?_
        have : tsfold (u :: tl) a = u := by
          simpa [tsfold, Nat.max_eq_left hle] using h
        rw [this]
        exact List.mem_cons_self u tl
    · exact Or.inr (List.mem_cons_of_mem u h)

lemma tsfold_perm {l₁ l₂ : List Nat} (h : l₁.Perm l₂) :
    ∀ a : Nat, tsfold l₁ a = tsfold l₂ a := by
  induction h with
  | nil => intro a; rfl
  | cons x _ ih => intro a; exact ih (max x a)
  | swap x y l =>
    intro a
    show tsfold l (max x (max y a)) = tsfold l (max y (max x a))
    congr 1
    omega
  | trans _ _ ih₁ ih₂ => intro a; exact (ih₁ a).trans (ih₂ a)

/-- C1: after SkelSyncAgent.sync_names processes the fetched comment and
name batches (online), the watermark is at least the previous watermark,
bounds every processed timestamp, is attained by the previous watermark
or one of the processed timestamps (so it is their maximum), and depends
only on the multiset of processed timestamps — not on the order in which
the server returned them, nor on the workspace or the analyst's
answers. -/
theorem sync_names_watermark (ask : RAnn → Bool) (s : WState) (last : Nat)
    (comments names : List RAnn) :
    last ≤ (sync_names ask true s last comments names).last_timestamp
    ∧ (∀ a ∈ comments ++ names,
        a.timestamp ≤ (sync_names ask true s last comments names).last_timestamp)
    ∧ ((sync_names ask true s last comments names).last_timestamp = last ∨
        (sync_names ask true s last comments names).last_timestamp ∈
          (comments ++ names).map RAnn.timestamp)
    ∧ (∀ (ask' : RAnn → Bool) (s' : WState) (comments' names' : List RAnn),
        ((comments ++ names).map RAnn.timestamp).Perm
          ((comments' ++ names').map RAnn.timestamp) →
        (sync_names ask' true s' last comments' names').last_timestamp =
          (sync_names ask true s last comments names).last_timestamp) := by
  rw [sync_names_last]
  refine ⟨le_tsfold _ _, ?_, tsfold_attained _ _, ?_⟩
  · intro a ha
    exact tsfold_mem_le _ _ _ (List.mem_map_of_mem RAnn.timestamp ha)
  · intro ask' s' comments' names' hp
    rw [sync_names_last]
    exact tsfold_perm hp.symm last

lemma asciiReplace_idem (d : List Char) :
    asciiReplace (asciiReplace d) = asciiReplace d := by
  unfold asciiReplace
  rw [List.map_map]
  refine List.map_congr_left ?_
  intro a _
  simp only [Function.comp_apply]
  by_cases h : a.toNat < 128 <;> simp [h]

lemma commentApply_plain (s : WState) (c : RAnn) :
    (commentApply s c).plain = s.plain := by
  unfold commentApply execute_comment
  dsimp only
  split <;> rfl

lemma commentApply_names (s : WState) (c : RAnn) :
    (commentApply s c).names = s.names := by
  unfold commentApply execute_comment
  dsimp only
  split <;> rfl

lemma commentApply_rpt (s : WState) (c : RAnn) (a : Nat) :
    (commentApply s c).rpt a =
      if a = c.address then gstep (s.plain c.address) (s.rpt c.address) c.data
      else s.rpt a := by
  unfold commentApply execute_comment gstep
  dsimp only
  split
  case isTrue h => simp [Function.update_apply, h]
  case isFalse h =>
    simp only [h, if_false]
    split
    case isTrue h2 => rw [h2]
    case isFalse h2 => rfl

lemma commentBatch_plain (b : List RAnn) :
    ∀ s : WState, (commentBatch s b).plain = s.plain := by
  induction b with
  | nil => intro s; rfl
  | cons c tl ih =>
    intro s
    show (commentBatch (commentApply s c) tl).plain = s.plain
    rw [ih, commentApply_plain]

lemma commentBatch_names (b : List RAnn) :
    ∀ s : WState, (commentBatch s b).names = s.names := by
  induction b with
  | nil => intro s; rfl
  | cons c tl ih =>
    intro s
    show (commentBatch (commentApply s c) tl).names = s.names
    rw [ih, commentApply_names]

lemma commentBatch_rpt (b : List RAnn) :
    ∀ (s : WState) (a : Nat),
      (commentBatch s b).rpt a =
        ((b.filter (fun c => c.address == a)).map RAnn.data).foldl
          (gstep (s.plain a)) (s.rpt a) := by
  induction b with
  | nil => intro s a; rfl
  | cons c tl ih =>
    intro s a
    show (commentBatch (commentApply s c) tl).rpt a = _
    rw [ih, commentApply_plain, commentApply_rpt]
    by_cases h : c.address = a
    · subst h
      simp [List.filter_cons]
    · have h' : ¬(a = c.address) := fun hh => h hh.symm
      simp [List.filter_cons, h, h']

lemma gfold_pair (p : Option (List Char)) (d : List Char)
    (tl : List (List Char)) :
    List.foldl (gstep p) (some d) tl =
        List.foldl (gstep p) (some (asciiReplace d)) tl
    ∨ (List.foldl (gstep p) (some d) tl = some d ∧
        List.foldl (gstep p) (some (asciiReplace d)) tl =
          some (asciiReplace d)) := by
  induction tl with
  | nil => exact Or.inr ⟨rfl, rfl⟩
  | cons e tl ih =>
    have hstep : gstep p (some d) e = gstep p (some (asciiReplace d)) e
        ∨ (gstep p (some d) e = some d ∧
            gstep p (some (asciiReplace d)) e = some (asciiReplace d)) := by
      unfold gstep
      by_cases hpe : p = some e
      · right
        constructor <;> simp [hpe]
      · by_cases hde : d = e
        · subst hde
          right
          constructor
          · simp
          · split_ifs <;> simp
        · by_cases hrde : asciiReplace d = e
          · left
            subst hrde
            simp [hpe, hde, asciiReplace_idem]
          · left
            simp [hpe, hde, hrde]
    simp only [List.foldl_cons]
    rcases hstep with h | ⟨h1, h2⟩
    · left
      rw [h]
    · rw [h1, h2]
      exact ih

lemma gfold_fix (p : Option (List Char)) (ds : List (List Char)) :
    ∀ r : Option (List Char),
      List.foldl (gstep p) (List.foldl (gstep p) r ds) ds =
        List.foldl (gstep p) r ds := by
  induction ds with
  | nil => intro r; rfl
  | cons d tl ih =>
    intro r
    simp only [List.foldl_cons]
    set T := List.foldl (gstep p) (gstep p r d) tl with hT
    by_cases hgd : gstep p T d = T
    · rw [hgd]
      exact ih (gstep p r d)
    · have hcond : p ≠ some d ∧ T ≠ some d := by
        by_contra hc
        apply hgd
        unfold gstep
        rw [if_neg hc]
      have hval : gstep p T d = some (asciiReplace d) := by
        unfold gstep
        rw [if_pos hcond]
      rw [hval]
      by_cases hrd : r = some d
      · have hgrd : gstep p r d = some d := by
          unfold gstep
          rw [hrd]
          simp
        rw [hgrd] at hT
        rcases gfold_pair p d tl with h | ⟨h1, _⟩
        · rw [hT, h]
        · exact absurd (hT.trans h1) hcond.2
      · have hgrd : gstep p r d = some (asciiReplace d) := by
          unfold gstep
          rw [if_pos ⟨hcond.1, by simpa using hrd⟩]
        rw [hgrd] at hT
        rw [hT]

/-- C4: applying the same batch of remote comments twice through
SkelUtils.execute_comment yields the same workspace as applying it once;
and a single apply schedules no write exactly when the payload equals
the plain or the repeatable comment at the address, otherwise it
schedules exactly the one synchronized repeatable-comment write. -/
theorem execute_comment_idempotent (s : WState) (b : List RAnn) (c : RAnn) :
    commentBatch (commentBatch s b) b = commentBatch s b
    ∧ ((execute_comment s c).2 = false ↔
        (s.plain c.address = some c.data ∨ s.rpt c.address = some c.data))
    ∧ ((execute_comment s c).2 = true →
        (execute_comment s c).1 =
          { s with
            rpt := Function.update s.rpt c.address (some (asciiReplace c.data)) }) := by
  refine ⟨?_, ?_, ?_⟩
  · apply WState.ext
    · rw [commentBatch_plain]
    · funext a
      rw [commentBatch_rpt, commentBatch_plain, commentBatch_rpt]
      exact gfold_fix (s.plain a) _ (s.rpt a)
    · rw [commentBatch_names]
  · unfold execute_comment
    dsimp only
    split
    case isTrue h =>
      simp only [Bool.true_eq_false, false_iff]
      tauto
    case isFalse h =>
      simp only [eq_self_iff_true, true_iff]
      tauto
  · unfold execute_comment
    dsimp only
    split
    case isTrue h => intro _; rfl
    case isFalse h =>
      intro hh
      exact absurd hh (by simp)
